import Mathlib

/-!
Shallow embedding of the mention-extraction engine of the mts-mockup
repository (src/api/services/transcriptMentions.ts, with the embedding
provider boundary of src/api/services/openai.ts abstracted as a parameter).

Modelling conventions:
* JavaScript numbers that carry scores, timestamps and thresholds are
  modelled as rationals; the vectors fed to cosine similarity are modelled
  as real numbers because the source divides by square roots of norms.
* JavaScript strings are Lean strings; the Unicode NFKD normalization step
  is the identity on the ASCII strings handled here, and the combining-mark
  stripping and lowercasing steps are modelled exactly.
* The third-party Fuse.js index is external library code, so a fuzzy
  search oracle is passed as an explicit parameter; theorems that need the
  library contract (scores lie in [0, 1]) take it as a hypothesis.
* The JavaScript Map is modelled as an association list that preserves
  insertion order, exactly as the iteration order of Map guarantees.
-/

namespace TranscriptMentions

/-- Whitespace class used by the source regexes, restricted to the ASCII
part of the JavaScript class \s. -/
def isWs (c : Char) : Bool :=
  c = ' ' || c = '\t' || c = '\n' || c = '\r' || c = '\x0b' || c = '\x0c'

/-- Word-character class of the JavaScript regex escape \w. -/
def isWordChar (c : Char) : Bool :=
  c.isAlphanum || c = '_'

/-- Letter class used to model the Unicode property escape \p{L}; it is
exact on the ASCII strings considered here. -/
def isUniLetter (c : Char) : Bool :=
  c.isAlpha

/-- Trim of String.prototype.trim: drop whitespace from both ends. -/
def jsTrim (s : String) : String :=
  ⟨((s.data.dropWhile isWs).reverse.dropWhile isWs).reverse⟩

/-- Recursion behind `splitRuns`: a separator character merges into the run
of a following separator, otherwise it opens a fresh empty field; an
ordinary character extends the first field. -/
def splitRunsList (p : Char → Bool) : List Char → List String
  | [] => [""]
  | c :: cs =>
    let r := splitRunsList p cs
    if p c then
      match cs with
      | [] => "" :: r
      | c2 :: _ => if p c2 then r else "" :: r
    else
      match r with
      | [] => [String.mk [c]]
      | f :: rest => String.mk (c :: f.data) :: rest

/-- Model of String.prototype.split against a character-class regex with a
+ quantifier: fields between maximal runs of separator characters, with an
empty leading or trailing field when the string starts or ends with a run. -/
def splitRuns (p : Char → Bool) (s : String) : List String :=
  splitRunsList p s.data

/-- Tokens of a string: split(/\s+/) followed by filter(Boolean). -/
def tokensOf (s : String) : List String :=
  (splitRuns isWs s).filter (fun t => t ≠ "")

/-- Substring test modelling RegExp.prototype.test for a literal pattern:
`pat` occurs somewhere in the scanned character list. -/
def containsSubAux (pat : List Char) : List Char → Bool
  | [] => pat.isPrefixOf ([] : List Char)
  | c :: cs => pat.isPrefixOf (c :: cs) || containsSubAux pat cs

/-- Substring containment of `t` in `s`. -/
def containsSub (s t : String) : Bool :=
  containsSubAux t.data s.data

/-- Boundary test before a match: the previous character (if any) must not
be in the forbidden class `bad`. -/
def boundaryBefore (bad : Char → Bool) : Option Char → Bool
  | none => true
  | some c => !bad c

/-- Boundary test after a match: the next character (if any) must not be in
the forbidden class `bad`. -/
def boundaryAfter (bad : Char → Bool) : List Char → Bool
  | [] => true
  | c :: _ => !bad c

/-- Scanner for the first index where the literal `pat` occurs flanked by
characters outside the class `bad`; `prev` carries the previous character. -/
def findFrom (bad : Char → Bool) (pat : List Char) :
    Option Char → List Char → Nat → Option Nat
  | prev, s, i =>
    if boundaryBefore bad prev && pat.isPrefixOf s && boundaryAfter bad (s.drop pat.length) then
      some i
    else
      match s with
      | [] => none
      | c :: cs => findFrom bad pat (some c) cs (i + 1)

/-- Model of segmentNorm.match(new RegExp(lookbehind-escaped-lookahead, u)):
the least index at which the literal normalized variant occurs with no
letter immediately before or after, or none. -/
def findLetterBounded (pat s : String) : Option Nat :=
  findFrom isUniLetter pat.data none s.data 0

/-- Word-bounded containment, modelling a test of a pattern framed by \b
against a string whose pattern starts and ends with word characters. -/
def containsWordBounded (pat s : String) : Bool :=
  (findFrom isWordChar pat.data none s.data 0).isSome

/-- First-occurrence deduplication of Array.from(new Set(xs)): Set keeps
the first occurrence of each element, in insertion order. -/
def jsSetDedup (seen : List String) : List String → List String
  | [] => []
  | x :: xs =>
    if seen.contains x then jsSetDedup seen xs
    else x :: jsSetDedup (x :: seen) xs

/-- Replacement modelling term.replace(whitespace-run-regex, underscore):
every maximal whitespace run becomes a single underscore. -/
def replaceWsRuns (s : String) : String :=
  String.intercalate "_" (splitRuns isWs s)

/-- Normalization `norm` of the source: NFKD-decompose (the identity on the
ASCII strings modelled here), strip the combining marks U+0300 to U+036F,
lowercase, trim. -/
def norm (s : String) : String :=
  jsTrim ⟨(s.data.filter (fun c => !(0x300 ≤ c.toNat && c.toNat ≤ 0x36f))).map Char.toLower⟩

/-- Identifier builder `makeId`: whitespace runs of the term become
underscores, the result is cut to 40 characters and joined with the segment
id and the floor of the timestamp. -/
def makeId (term : String) (segmentId : Int) (timestamp : ℚ) : String :=
  ⟨(replaceWsRuns term).data.take 40⟩ ++ "-" ++ toString segmentId ++ "-" ++ toString timestamp.floor

/-- Match provenance of a mention, the matchType field of the source. -/
inductive MatchType
  | explicit
  | fuzzy
  | implicit
deriving DecidableEq

/-- Term record after catalog normalization (the Term type of the source).
Optional fields model possibly-undefined JavaScript fields. -/
structure Term where
  id : Option String := none
  text : String
  aliases : List String := []
  category : Option String := none
  isExplicit : Option Bool := none
deriving DecidableEq

/-- Transcript segment (the Segment type of the source); the source field
`end` is called `stop` here because `end` is reserved in Lean. -/
structure Segment where
  id : Int
  start : ℚ
  stop : ℚ
  text : String
deriving DecidableEq

/-- Extracted mention (the Mention type of the source). -/
structure Mention where
  id : String
  termId : Option String := none
  term : String
  matchedText : String
  segmentId : Int
  timestamp : ℚ
  score : ℚ
  matchType : MatchType
deriving DecidableEq

/-- Strategy priority used by the deduplicator: explicit 3, fuzzy 2,
implicit 1. -/
def priorityOf : MatchType → Nat
  | .explicit => 3
  | .fuzzy => 2
  | .implicit => 1

/-- Deduplication key of a mention: the term text and the segment id joined
with a bar, exactly the template string of the source. -/
def mentionKey (m : Mention) : String :=
  m.term ++ "|" ++ toString m.segmentId

/-- Lookup in the association-list model of a JavaScript Map. -/
def mapGet {α : Type} : List (String × α) → String → Option α
  | [], _ => none
  | (k', v') :: rest, k => if k' = k then some v' else mapGet rest k

/-- Update in the association-list model of a JavaScript Map: replace the
value at an existing key in place, otherwise append the binding, matching
the insertion-order iteration of Map. -/
def mapSet {α : Type} : List (String × α) → String → α → List (String × α)
  | [], k, v => [(k, v)]
  | (k', v') :: rest, k, v =>
    if k' = k then (k, v) :: rest else (k', v') :: mapSet rest k v

/-- Acronym heuristic of the source: the raw variant stripped of
non-alphanumerics is two to six uppercase letters or digits, or the raw
variant itself is two to six uppercase letters. -/
def isAcr (variantRaw : String) : Bool :=
  (let f := variantRaw.data.filter Char.isAlphanum
   decide (2 ≤ f.length) && decide (f.length ≤ 6) && f.all (fun c => c.isUpper || c.isDigit))
  ||
  (decide (2 ≤ variantRaw.length) && decide (variantRaw.length ≤ 6) &&
    variantRaw.data.all Char.isUpper)

/-- Hawaii-related token list of the explicit matcher. -/
def hawaiiWords : List String :=
  ["hawaii", "manoa", "hilo", "oahu", "maui", "kauai", "west", "w oahu", "west oahu"]

/-- Generic organizational words of the context-rejection regex. -/
def rejectWords : List String :=
  ["county", "tax", "foundation", "chamber", "state", "federal", "dept",
   "department", "office", "city", "committee"]

/-- Consumption of one nonempty whitespace run at the head of a reversed
character list, modelling a \s+ group read from the right end. -/
def afterWsRev (r : List Char) : Option (List Char) :=
  match r with
  | c :: cs => if isWs c then some ((c :: cs).dropWhile isWs) else none
  | [] => none

/-- Test, on a reversed remainder, that the word `w` comes next (read right
to left) and is preceded by a word boundary. -/
def matchWordRevEnd (w : String) (r : List Char) : Bool :=
  w.data.reverse.isPrefixOf r &&
    (match r.drop w.length with
     | [] => true
     | c :: _ => !isWordChar c)

/-- Test of the context-rejection pattern of the source against the text
before a match: the text ends with a listed word, whitespace, and an
optional final of-plus-whitespace group. -/
def rejectEndMatch (s : String) : Bool :=
  let r := s.data.reverse
  rejectWords.any fun w =>
    match afterWsRev r with
    | none => false
    | some r1 =>
      matchWordRevEnd w r1 ||
      (['f', 'o'].isPrefixOf r1 &&
        (match afterWsRev (r1.drop 2) with
         | none => false
         | some r2 => matchWordRevEnd w r2))

/-- Body of the explicit variant loop of findExplicitMatches for one
variant against one segment: all skip conditions in source order, then the
boundary-aware literal search and the context rejection; a successful
variant yields the explicit mention with score 1. -/
def tryVariantExplicit (term : Term) (segment : Segment) (segmentNorm : String)
    (variant : String) : Option Mention :=
  let variantRaw := jsTrim variant
  if variantRaw = "" then none
  else
    let variantNorm := norm variantRaw
    let isAcronym := isAcr variantRaw
    let tokens := tokensOf variantNorm
    if tokens.length = 1 && decide ((tokens.headD "").length < 3) && !isAcronym then none
    else
      let isHawaiiRelated := tokens.any (fun t => hawaiiWords.contains t)
      if isHawaiiRelated && decide (tokens.length < 2) && !isAcronym &&
          !containsWordBounded "university" segmentNorm then none
      else
        match findLetterBounded variantNorm segmentNorm with
        | none => none
        | some idx =>
          let beforeMatch : String := ⟨(segmentNorm.data.take idx).drop (idx - 30)⟩
          if rejectEndMatch beforeMatch then none
          else
            some { id := makeId term.text segment.id segment.start
                   termId := term.id
                   term := term.text
                   matchedText := variantNorm
                   segmentId := segment.id
                   timestamp := segment.start
                   score := 1
                   matchType := .explicit }

/-- Inner loops of findExplicitMatches for one term and one segment: the
`matched` flag makes the first successful variant win. -/
def firstVariantMatch (term : Term) (segment : Segment) : Option Mention :=
  let segmentNorm := norm segment.text
  (term.text :: term.aliases).findSome? (tryVariantExplicit term segment segmentNorm)

/-- Strategy 1 of the source, findExplicitMatches: for every term and every
segment, at most one explicit mention from the first matching variant. -/
def findExplicitMatches (terms : List Term) (segments : List Segment) : List Mention :=
  terms.flatMap fun term => segments.filterMap fun segment => firstVariantMatch term segment

/-- Entry of the fuzzy search corpus: a term together with one of its
normalized variants, the shape indexed by the Fuse.js instance. -/
structure CorpusEntry where
  term : Term
  variant : String
deriving DecidableEq

/-- One result of a fuzzy search, the item-and-score shape returned by
Fuse.js when includeScore is set. -/
structure FuseResult where
  item : CorpusEntry
  score : ℚ

/-- Options record of findFuzzyMentions. -/
structure FuzzyOptions where
  threshold : ℚ
  distance : ℚ
  minMatchCharLength : Nat
  includeScore : Bool

/-- Oracle abstracting the third-party Fuse.js library, external to this
repository: given the indexed corpus, the construction options and a query,
it returns the ranked search results. -/
def FuseFn : Type :=
  List CorpusEntry → FuzzyOptions → String → List FuseResult

/-- Contract of the Fuse.js library assumed by theorems that need it: every
reported score lies in [0, 1]. -/
def FuseValid (fuse : FuseFn) : Prop :=
  ∀ corpus options q r, r ∈ fuse corpus options q → 0 ≤ r.score ∧ r.score ≤ 1

/-- Corpus construction of findFuzzyMentions: terms not explicitly marked
non-explicit contribute each nonempty normalized variant that has at least
two tokens, a first token of length at least four, or an acronym shape. -/
def buildSearchCorpus (terms : List Term) : List CorpusEntry :=
  (terms.filter fun t => t.isExplicit ≠ some false).flatMap fun term =>
    (term.text :: term.aliases).filterMap fun variant =>
      let vRaw := jsTrim variant
      if vRaw = "" then none
      else
        let vNorm := norm vRaw
        let tokens := tokensOf vNorm
        let isAcronym := isAcr vRaw
        if decide (2 ≤ tokens.length) || decide (4 ≤ (tokens.headD "").length) || isAcronym then
          some { term := term, variant := vNorm }
        else none

/-- Window phrase of the source: words.slice(i, i + k).join(space). -/
def sliceJoin (words : List String) (i k : Nat) : String :=
  String.intercalate " " ((words.drop i).take k)

/-- Rounding of Number(x.toFixed(4)): the value rounded to four decimal
places, choosing the larger candidate on a tie as toFixed specifies, which
is the floor of the scaled value plus one half. -/
def round4 (q : ℚ) : ℚ :=
  ((q * 10000 + 1 / 2).floor : ℚ) / 10000

/-- Body of the phrase loop of findFuzzyMentions for one candidate phrase:
minimum-length filter, fuzzy query, threshold check on the best hit, token
overlap of at least 66 percent, the Hawaii context requirement, and the
fuzzy mention with score 1 minus the Fuse score rounded to four decimals. -/
def tryPhrase (fuse : FuseFn) (corpus : List CorpusEntry) (options : FuzzyOptions)
    (segment : Segment) (phrase : String) : Option Mention :=
  let phraseNorm := norm phrase
  if phraseNorm.length < options.minMatchCharLength then none
  else
    match fuse corpus options phraseNorm with
    | [] => none
    | result :: _ =>
      if result.score < options.threshold then
        let phraseTokens := (splitRuns isWs phraseNorm).dedup
        let variantTokens := (splitRuns isWs result.item.variant).dedup
        let overlap := (phraseTokens.filter (fun t => variantTokens.contains t)).length
        let overlapRatio : ℚ := (overlap : ℚ) / (min phraseTokens.length variantTokens.length : ℚ)
        if overlapRatio < 66 / 100 then none
        else if (containsSub phraseNorm "hawaii" || containsSub phraseNorm "manoa" ||
                 containsSub phraseNorm "hilo") && !containsSub phraseNorm "university" then none
        else
          some { id := makeId result.item.term.text segment.id segment.start
                 termId := result.item.term.id
                 term := result.item.term.text
                 matchedText := phrase
                 segmentId := segment.id
                 timestamp := segment.start
                 score := round4 (1 - result.score)
                 matchType := .fuzzy }
      else none

/-- Window loop of findFuzzyMentions over one segment: three candidate
phrases per starting word index; a successful phrase breaks only the phrase
loop, so every window index can contribute a mention. -/
def fuzzySegmentMentions (fuse : FuseFn) (corpus : List CorpusEntry)
    (options : FuzzyOptions) (segment : Segment) : List Mention :=
  let words := splitRuns isWs segment.text
  (List.range words.length).filterMap fun i =>
    [sliceJoin words i 3, sliceJoin words i 4, sliceJoin words i 5].findSome?
      (tryPhrase fuse corpus options segment)

/-- Strategy 2 of the source, findFuzzyMentions: segments whose stringified
id is in the already-matched set are skipped, the rest go through the
window loop. -/
def findFuzzyMentions (fuse : FuseFn) (terms : List Term) (segments : List Segment)
    (alreadyMatched : List String) (options : FuzzyOptions) : List Mention :=
  let corpus := buildSearchCorpus terms
  segments.flatMap fun segment =>
    if alreadyMatched.contains (toString segment.id) then []
    else fuzzySegmentMentions fuse corpus options segment

/-- Fold step of deduplicateMentions over the key-to-mention map: a first
mention for a key is inserted; a later one replaces the stored mention
exactly when it has strictly higher priority, or equal priority and
strictly higher score. -/
def dedupeStep (acc : List (String × Mention)) (m : Mention) : List (String × Mention) :=
  let key := mentionKey m
  match mapGet acc key with
  | none => mapSet acc key m
  | some existing =>
    if priorityOf m.matchType > priorityOf existing.matchType ∨
        (priorityOf m.matchType = priorityOf existing.matchType ∧ m.score > existing.score) then
      mapSet acc key m
    else acc

/-- Boolean form of the final comparator of deduplicateMentions: mention
`a` may precede `b` when `b` has lower priority, or equal priority and a
score not above that of `a`. -/
def mentionLe (a b : Mention) : Bool :=
  decide (priorityOf b.matchType < priorityOf a.matchType) ||
    (decide (priorityOf b.matchType = priorityOf a.matchType) && decide (b.score ≤ a.score))

/-- Insertion step of the stable sort: the new element lands after every
stored element that may come before it under `le`, so elements equivalent
under `le` keep their original relative order. -/
def insertLe {α : Type} (le : α → α → Bool) (a : α) : List α → List α
  | [] => [a]
  | b :: bs => if le b a then b :: insertLe le a bs else a :: b :: bs

/-- Stable insertion sort by the boolean comparator `le`: elements are
inserted in input order. For a total preorder a stable sort is unique, so
this agrees with the stable Array.prototype.sort of the source. -/
def sortLe {α : Type} (le : α → α → Bool) (l : List α) : List α :=
  l.foldl (fun acc a => insertLe le a acc) []

/-- Deduplicator of the source: fold the mentions through the keyed map,
then sort the stored values with the priority-then-score comparator. -/
def deduplicateMentions (mentions : List Mention) : List Mention :=
  sortLe mentionLe ((mentions.foldl dedupeStep []).map Prod.snd)

/-- Alias field of a raw catalog record: absent, a string array, or a
delimiter-separated string. -/
inductive RawAliases
  | undef
  | arr (xs : List String)
  | str (s : String)
deriving DecidableEq

/-- Raw term record accepted by findMentions before catalog normalization;
optional fields model possibly-undefined JavaScript fields. -/
structure RawTerm where
  id : Option String := none
  term : Option String := none
  text : Option String := none
  aliases : RawAliases := .undef
  category : Option String := none
  isExplicit : Option Bool := none
deriving DecidableEq

/-- Truthiness of an optional string: present and nonempty. -/
def truthy : Option String → Bool
  | some s => s ≠ ""
  | none => false

/-- Short-circuit a-or-b over optional strings, the JavaScript operator
with the empty string falsy. -/
def jsOrStr (a b : Option String) : Option String :=
  if truthy a then a else b

/-- Alias-string parsing of findMentions: split on runs of commas,
semicolons and whitespace, trim each piece, drop falsy pieces. -/
def splitAliases (s : String) : List String :=
  ((splitRuns (fun c => c = ',' || c = ';' || isWs c) s).map jsTrim).filter (fun a => a ≠ "")

/-- Catalog normalization step inlined in findMentions: the id falls back
from id to term to text, the text from text to term to the empty string,
array aliases are kept as they are, string aliases are split, and a falsy
category becomes undefined. -/
def normalizeRawTerm (t : RawTerm) : Term :=
  { id := jsOrStr t.id (jsOrStr t.term (jsOrStr t.text none))
    text := if truthy t.text then t.text.getD "" else if truthy t.term then t.term.getD "" else ""
    aliases :=
      match t.aliases with
      | .arr xs => xs
      | .str s => splitAliases s
      | .undef => []
    category := if truthy t.category then t.category else none
    isExplicit := t.isExplicit }

/-- Default fuzzy threshold of the orchestrator. -/
def DEFAULT_FUZZY_THRESHOLD : ℚ := 2 / 10

/-- Orchestrator findMentions of the source: normalize the raw terms, run
the explicit matcher, record the matched segment ids, run the fuzzy matcher
over the rest with the default options, and deduplicate. The implicit stage
of the source is commented out, so no embedding call occurs and the fuzzy
results are the last ones added. -/
def findMentions (fuse : FuseFn) (terms : List RawTerm) (segments : List Segment) :
    List Mention :=
  let normalizedTerms := terms.map normalizeRawTerm
  let explicitMentions := findExplicitMatches normalizedTerms segments
  let matchedSegmentIds := explicitMentions.map (fun m => toString m.segmentId)
  let fuzzy := findFuzzyMentions fuse normalizedTerms segments matchedSegmentIds
    { threshold := DEFAULT_FUZZY_THRESHOLD
      distance := 50
      minMatchCharLength := 5
      includeScore := true }
  deduplicateMentions (explicitMentions ++ fuzzy)

/-- Cache of the embeddings module: keys are normalized texts; a stored
value of none models the undefined stored when the provider returns fewer
vectors than requested. -/
def EmbCache : Type :=
  List (String × Option (List ℚ))

/-- Cache fill loop of batchGetEmbeddings: the i-th missing key receives
the i-th fetched vector, or undefined when the fetched list is shorter. -/
def fillCache (cache : EmbCache) : List String → List (List ℚ) → EmbCache
  | [], _ => cache
  | k :: ks, fetched => fillCache (mapSet cache k fetched.head?) ks fetched.tail

/-- Embedding batcher batchGetEmbeddings of the source, with the external
provider call getEmbeddings as an explicit fallible parameter and the
module-level cache as explicit state. Inputs are normalized and
deduplicated, only cache misses are fetched in one batch, and results come
back in original request order; the source has no try-catch, so a provider
error is returned as an error. -/
def batchGetEmbeddings (fetch : List String → Except String (List (List ℚ)))
    (cache : EmbCache) (texts : List String) :
    Except String (List (Option (List ℚ)) × EmbCache) :=
  let normalized := texts.map norm
  let unique := jsSetDedup [] normalized
  let missing := unique.filter fun u => !(mapGet cache u).isSome
  match missing with
  | [] => .ok (normalized.map (fun n => (mapGet cache n).join), cache)
  | _ :: _ =>
    match fetch missing with
    | .error e => .error e
    | .ok fetched =>
      let cacheAfter := fillCache cache missing fetched
      .ok (normalized.map (fun n => (mapGet cacheAfter n).join), cacheAfter)

/-- Cosine similarity of the source over real vectors: the loop runs over
the indices of the first vector, so the second vector is truncated to that
length; zero accumulated norms short-circuit to zero. Out-of-range reads of
the second vector (NaN arithmetic in JavaScript) are outside this
real-valued model, which covers a second vector at least as long as the
first. -/
noncomputable def cosineSimilarity (vecA vecB : List ℝ) : ℝ :=
  let dot := ((vecA.zip vecB).map (fun p => p.1 * p.2)).sum
  let na := (vecA.map (fun x => x * x)).sum
  let nb := ((vecB.take vecA.length).map (fun x => x * x)).sum
  if na = 0 ∨ nb = 0 then 0 else dot / (Real.sqrt na * Real.sqrt nb)

/-- Fuzzy oracle returning no results, a valid degenerate Fuse.js
behaviour used to instantiate theorems at concrete inputs. -/
def fuseEmpty : FuseFn :=
  fun _ _ _ => []

/-- Raw catalog record for the term RCUH. -/
def rawRCUH : RawTerm :=
  { text := some "RCUH" }

/-- Transcript segment mentioning RCUH literally. -/
def segRCUH : Segment :=
  { id := 1, start := 0, stop := 5, text := "funded through RCUH last year" }

/-- Explicit mention extracted for RCUH from segRCUH. -/
def mentionRCUH : Mention :=
  { id := "RCUH-1-0"
    termId := some "RCUH"
    term := "RCUH"
    matchedText := "rcuh"
    segmentId := 1
    timestamp := 0
    score := 1
    matchType := .explicit }

/-- Canonical term for the University of Hawaii example. -/
def uhTerm : Term :=
  { text := "University of Hawaii" }

/-- Segment whose normalized text contains the tokens of the University of
Hawaii variant separated by irregular whitespace, not as an exact phrase. -/
def uhSegment : Segment :=
  { id := 7, start := 10, stop := 12, text := "the  university   of \n hawaii spoke" }

/-- Fuzzy oracle modelling Fuse.js over a corpus containing the term
University of Hawaii: an exact query returns the perfect-score hit, any
other query returns nothing. -/
def fuseUH : FuseFn :=
  fun corpus _ q =>
    if q = "university of hawaii" then
      (corpus.filter (fun e => e.variant = "university of hawaii")).map
        (fun e => { item := e, score := 0 })
    else []

/-- Segment repeating the phrase university of hawaii twice. -/
def uhSeg2 : Segment :=
  { id := 3, start := 4, stop := 9, text := "university of hawaii university of hawaii" }

/-- Fuzzy options with the defaults of findFuzzyMentions. -/
def fuzzyOptsDefault : FuzzyOptions :=
  { threshold := 12 / 100, distance := 50, minMatchCharLength := 5, includeScore := true }

/-- Raw record with padded text and a duplicated alias array. -/
def rawPadded : RawTerm :=
  { text := some "  ab  ", aliases := .arr ["x", "x"] }

/-- Raw record whose text is whitespace only. -/
def rawBlankText : RawTerm :=
  { text := some "   " }

/-- Raw record with every field absent, normalizing to a blank term. -/
def rawEmpty : RawTerm :=
  {}

/-- Provider that fails every batch, modelling a network error thrown by
the embeddings client. -/
def failFetch : List String → Except String (List (List ℚ)) :=
  fun _ => .error "network"

/-- Cache that already holds the key b, for witness instantiation. -/
def cacheB : EmbCache :=
  [("b", some [])]

/-- Explicit mention on segment 5 of the term T, for dedup examples. -/
def mentionExplEx : Mention :=
  { id := "e", term := "T", matchedText := "t", segmentId := 5, timestamp := 0,
    score := 1, matchType := .explicit }

/-- Implicit mention on segment 5 of the same term T, for dedup examples. -/
def mentionImplEx : Mention :=
  { id := "i", term := "T", matchedText := "x", segmentId := 5, timestamp := 0,
    score := 0, matchType := .implicit }

/-- Domination preorder realized by the deduplicator: `a` is at most as
preferred as `b` when `a` has lower priority, or equal priority and a score
not above that of `b`. -/
def lexLe (a b : Mention) : Prop :=
  priorityOf a.matchType < priorityOf b.matchType ∨
    (priorityOf a.matchType = priorityOf b.matchType ∧ a.score ≤ b.score)

theorem lexLe_refl (a : Mention) : lexLe a a :=
  Or.inr ⟨rfl, le_refl _⟩

theorem lexLe_trans {a b c : Mention} (h1 : lexLe a b) (h2 : lexLe b c) : lexLe a c := by
  rcases h1 with h1 | ⟨h1, h1s⟩ <;> rcases h2 with h2 | ⟨h2, h2s⟩
  · exact Or.inl (h1.trans h2)
  · exact Or.inl (h2 ▸ h1)
  · exact Or.inl (h1 ▸ h2)
  · exact Or.inr ⟨h1.trans h2, h1s.trans h2s⟩

theorem mapGet_mapSet_self {α : Type} (acc : List (String × α)) (k : String) (v : α) :
    mapGet (mapSet acc k v) k = some v := by
  induction acc with
  | nil => simp [mapSet, mapGet]
  | cons p rest ih =>
    obtain ⟨k', v'⟩ := p
    by_cases h : k' = k
    · simp [mapSet, mapGet, h]
    · simp [mapSet, mapGet, h, ih]

theorem mapGet_mapSet_ne {α : Type} (acc : List (String × α)) {k k₀ : String} (v : α)
    (h : k₀ ≠ k) : mapGet (mapSet acc k₀ v) k = mapGet acc k := by
  induction acc with
  | nil => simp [mapSet, mapGet, h]
  | cons p rest ih =>
    obtain ⟨k', v'⟩ := p
    by_cases hk : k' = k₀
    · subst hk
      simp [mapSet, mapGet, h]
    · by_cases hk2 : k' = k
      · subst hk2
        simp [mapSet, mapGet, Ne.symm h]
      · simp [mapSet, mapGet, hk, hk2, ih]

theorem mem_mapSet {α : Type} {acc : List (String × α)} {k : String} {v : α} {p : String × α}
    (h : p ∈ mapSet acc k v) : p = (k, v) ∨ p ∈ acc := by
  induction acc with
  | nil => simpa [mapSet] using h
  | cons q rest ih =>
    obtain ⟨k', v'⟩ := q
    by_cases hk : k' = k
    · rw [mapSet, if_pos hk] at h
      rcases List.mem_cons.mp h with h1 | h1
      · exact Or.inl h1
      · exact Or.inr (List.mem_cons_of_mem _ h1)
    · rw [mapSet, if_neg hk] at h
      rcases List.mem_cons.mp h with h1 | h1
      · exact Or.inr (by simp [h1])
      · rcases ih h1 with h2 | h2
        · exact Or.inl h2
        · exact Or.inr (List.mem_cons_of_mem _ h2)

theorem map_fst_mapSet_of_mem {α : Type} {acc : List (String × α)} {k : String} (v : α)
    (hk : k ∈ acc.map Prod.fst) : (mapSet acc k v).map Prod.fst = acc.map Prod.fst := by
  induction acc with
  | nil => simp at hk
  | cons q rest ih =>
    obtain ⟨k', v'⟩ := q
    by_cases h : k' = k
    · simp [mapSet, h]
    · have hk' : k ∈ rest.map Prod.fst := by
        rcases List.mem_map.mp hk with ⟨p, hp, hpe⟩
        rcases List.mem_cons.mp hp with h1 | h1
        · subst h1
          exact absurd hpe h
        · exact List.mem_map.mpr ⟨p, h1, hpe⟩
      simp [mapSet, h, ih hk']

theorem mapSet_of_not_mem {α : Type} {acc : List (String × α)} {k : String} (v : α)
    (hk : k ∉ acc.map Prod.fst) : mapSet acc k v = acc ++ [(k, v)] := by
  induction acc with
  | nil => simp [mapSet]
  | cons q rest ih =>
    obtain ⟨k', v'⟩ := q
    have h : k' ≠ k := by
      intro h
      exact hk (by simp [h])
    have hk' : k ∉ rest.map Prod.fst := by
      intro h1
      exact hk (by simp [h1])
    simp [mapSet, h, ih hk']

theorem nodup_map_fst_mapSet {α : Type} {acc : List (String × α)} {k : String} {v : α}
    (h : (acc.map Prod.fst).Nodup) : ((mapSet acc k v).map Prod.fst).Nodup := by
  by_cases hk : k ∈ acc.map Prod.fst
  · rw [map_fst_mapSet_of_mem v hk]
    exact h
  · rw [mapSet_of_not_mem v hk]
    simp only [List.map_append, List.map_cons, List.map_nil]
    exact List.Nodup.append h (List.nodup_singleton k) (by simpa using hk)

theorem mapGet_eq_of_mem_nodup {α : Type} {acc : List (String × α)} {k : String} {v : α}
    (hmem : (k, v) ∈ acc) (h : (acc.map Prod.fst).Nodup) : mapGet acc k = some v := by
  induction acc with
  | nil => simp at hmem
  | cons q rest ih =>
    obtain ⟨k', v'⟩ := q
    rcases List.mem_cons.mp hmem with h1 | h1
    · obtain ⟨hk, hv⟩ := Prod.mk.injEq .. ▸ h1.symm
      simp [mapGet, hk, hv]
    · by_cases hk : k' = k
      · exfalso
        have : k ∈ rest.map Prod.fst := List.mem_map.mpr ⟨(k, v), h1, rfl⟩
        rw [List.map_cons, List.nodup_cons] at h
        exact h.1 (hk ▸ this)
      · rw [List.map_cons, List.nodup_cons] at h
        simp only [mapGet, if_neg hk]
        exact ih h1 h.2

theorem mem_insertLe {α : Type} {le : α → α → Bool} {a x : α} {l : List α} :
    x ∈ insertLe le a l ↔ x = a ∨ x ∈ l := by
  induction l with
  | nil => simp [insertLe]
  | cons b bs ih =>
    simp only [insertLe]
    split
    · simp only [List.mem_cons, ih]
      tauto
    · simp only [List.mem_cons]

theorem insertLe_perm {α : Type} (le : α → α → Bool) (a : α) (l : List α) :
    List.Perm (insertLe le a l) (a :: l) := by
  induction l with
  | nil => simp [insertLe]
  | cons b bs ih =>
    simp only [insertLe]
    split
    · exact (ih.cons b).trans (List.Perm.swap a b bs)
    · exact List.Perm.refl _

theorem sortLe_perm {α : Type} (le : α → α → Bool) (l : List α) : List.Perm (sortLe le l) l := by
  suffices h : ∀ (l acc : List α), List.Perm (l.foldl (fun acc a => insertLe le a acc) acc) (acc ++ l) by
    simpa using h l []
  intro l
  induction l with
  | nil =>
    intro acc
    simp
  | cons a as ih =>
    intro acc
    rw [List.foldl_cons]
    refine ((ih _).trans ((insertLe_perm le a acc).append_right as)).trans ?_
    exact List.perm_middle.symm

theorem mem_sortLe {α : Type} {le : α → α → Bool} {x : α} {l : List α} :
    x ∈ sortLe le l ↔ x ∈ l :=
  (sortLe_perm le l).mem_iff

theorem insertLe_pairwise {α : Type} {le : α → α → Bool}
    (htrans : ∀ a b c, le a b → le b c → le a c)
    (htotal : ∀ a b, le a b || le b a)
    {a : α} {l : List α} (h : l.Pairwise (fun x y => le x y = true)) :
    (insertLe le a l).Pairwise (fun x y => le x y = true) := by
  induction l with
  | nil => simp [insertLe]
  | cons b bs ih =>
    rcases List.pairwise_cons.mp h with ⟨hb, hbs⟩
    simp only [insertLe]
    split
    · rename_i hba
      refine List.pairwise_cons.mpr ⟨?_, ih hbs⟩
      intro x hx
      rcases mem_insertLe.mp hx with rfl | hx
      · exact hba
      · exact hb x hx
    · rename_i hba
      have hab : le a b := by
        rcases Bool.or_eq_true .. |>.mp (htotal a b) with h1 | h1
        · exact h1
        · exact absurd h1 hba
      refine List.pairwise_cons.mpr ⟨?_, h⟩
      intro x hx
      rcases List.mem_cons.mp hx with rfl | hx
      · exact hab
      · exact htrans a b x hab (hb x hx)

theorem sortLe_pairwise {α : Type} (le : α → α → Bool)
    (htrans : ∀ a b c, le a b → le b c → le a c)
    (htotal : ∀ a b, le a b || le b a) (l : List α) :
    (sortLe le l).Pairwise (fun x y => le x y = true) := by
  suffices h : ∀ (l acc : List α), acc.Pairwise (fun x y => le x y = true) →
      (l.foldl (fun acc a => insertLe le a acc) acc).Pairwise (fun x y => le x y = true) by
    exact h l [] (by simp)
  intro l
  induction l with
  | nil =>
    intro acc h
    simpa using h
  | cons a as ih =>
    intro acc hacc
    rw [List.foldl_cons]
    exact ih _ (insertLe_pairwise htrans htotal hacc)

theorem dedupeStep_eq_of_none {acc : List (String × Mention)} {m : Mention}
    (hg : mapGet acc (mentionKey m) = none) :
    dedupeStep acc m = mapSet acc (mentionKey m) m := by
  simp only [dedupeStep, hg]

theorem dedupeStep_eq_of_some_pos {acc : List (String × Mention)} {m existing : Mention}
    (hg : mapGet acc (mentionKey m) = some existing)
    (hc : priorityOf m.matchType > priorityOf existing.matchType ∨
      (priorityOf m.matchType = priorityOf existing.matchType ∧ m.score > existing.score)) :
    dedupeStep acc m = mapSet acc (mentionKey m) m := by
  simp only [dedupeStep, hg, if_pos hc]

theorem dedupeStep_eq_of_some_neg {acc : List (String × Mention)} {m existing : Mention}
    (hg : mapGet acc (mentionKey m) = some existing)
    (hc : ¬(priorityOf m.matchType > priorityOf existing.matchType ∨
      (priorityOf m.matchType = priorityOf existing.matchType ∧ m.score > existing.score))) :
    dedupeStep acc m = acc := by
  simp only [dedupeStep, hg, if_neg hc]

theorem dedupeStep_entry_cases {acc : List (String × Mention)} {m : Mention}
    {p : String × Mention} (h : p ∈ dedupeStep acc m) : p = (mentionKey m, m) ∨ p ∈ acc := by
  cases hg : mapGet acc (mentionKey m) with
  | none =>
    rw [dedupeStep_eq_of_none hg] at h
    exact mem_mapSet h
  | some existing =>
    by_cases hc : priorityOf m.matchType > priorityOf existing.matchType ∨
        (priorityOf m.matchType = priorityOf existing.matchType ∧ m.score > existing.score)
    · rw [dedupeStep_eq_of_some_pos hg hc] at h
      exact mem_mapSet h
    · rw [dedupeStep_eq_of_some_neg hg hc] at h
      exact Or.inr h

theorem nodup_dedupeStep {acc : List (String × Mention)} {m : Mention}
    (h : (acc.map Prod.fst).Nodup) : ((dedupeStep acc m).map Prod.fst).Nodup := by
  cases hg : mapGet acc (mentionKey m) with
  | none =>
    rw [dedupeStep_eq_of_none hg]
    exact nodup_map_fst_mapSet h
  | some existing =>
    by_cases hc : priorityOf m.matchType > priorityOf existing.matchType ∨
        (priorityOf m.matchType = priorityOf existing.matchType ∧ m.score > existing.score)
    · rw [dedupeStep_eq_of_some_pos hg hc]
      exact nodup_map_fst_mapSet h
    · rw [dedupeStep_eq_of_some_neg hg hc]
      exact h

theorem dedupeStep_get_mono {acc : List (String × Mention)} (m : Mention) {k : String}
    {v : Mention} (hg : mapGet acc k = some v) :
    ∃ v', mapGet (dedupeStep acc m) k = some v' ∧ lexLe v v' := by
  by_cases hk : mentionKey m = k
  · subst hk
    by_cases hc : priorityOf m.matchType > priorityOf v.matchType ∨
        (priorityOf m.matchType = priorityOf v.matchType ∧ m.score > v.score)
    · rw [dedupeStep_eq_of_some_pos hg hc]
      refine ⟨m, mapGet_mapSet_self .., ?_⟩
      rcases hc with hp | ⟨hpe, hps⟩
      · exact Or.inl hp
      · exact Or.inr ⟨hpe.symm, le_of_lt hps⟩
    · rw [dedupeStep_eq_of_some_neg hg hc]
      exact ⟨v, hg, lexLe_refl v⟩
  · cases hgm : mapGet acc (mentionKey m) with
    | none =>
      rw [dedupeStep_eq_of_none hgm]
      refine ⟨v, ?_, lexLe_refl v⟩
      rw [mapGet_mapSet_ne _ _ hk]
      exact hg
    | some existing =>
      by_cases hc : priorityOf m.matchType > priorityOf existing.matchType ∨
          (priorityOf m.matchType = priorityOf existing.matchType ∧ m.score > existing.score)
      · rw [dedupeStep_eq_of_some_pos hgm hc]
        refine ⟨v, ?_, lexLe_refl v⟩
        rw [mapGet_mapSet_ne _ _ hk]
        exact hg
      · rw [dedupeStep_eq_of_some_neg hgm hc]
        exact ⟨v, hg, lexLe_refl v⟩

theorem dedupeStep_get_self (acc : List (String × Mention)) (m : Mention) :
    ∃ v', mapGet (dedupeStep acc m) (mentionKey m) = some v' ∧ lexLe m v' := by
  cases hg : mapGet acc (mentionKey m) with
  | none =>
    rw [dedupeStep_eq_of_none hg]
    exact ⟨m, mapGet_mapSet_self .., lexLe_refl m⟩
  | some existing =>
    by_cases hc : priorityOf m.matchType > priorityOf existing.matchType ∨
        (priorityOf m.matchType = priorityOf existing.matchType ∧ m.score > existing.score)
    · rw [dedupeStep_eq_of_some_pos hg hc]
      exact ⟨m, mapGet_mapSet_self .., lexLe_refl m⟩
    · rw [dedupeStep_eq_of_some_neg hg hc]
      push_neg at hc
      refine ⟨existing, hg, ?_⟩
      rcases lt_or_eq_of_le hc.1 with h1 | h1
      · exact Or.inl h1
      · exact Or.inr ⟨h1, hc.2 h1⟩

theorem foldl_dedupe_get_mono (ms : List Mention) {acc : List (String × Mention)} {k : String}
    {v : Mention} (hg : mapGet acc k = some v) :
    ∃ v', mapGet (ms.foldl dedupeStep acc) k = some v' ∧ lexLe v v' := by
  induction ms generalizing acc v with
  | nil => exact ⟨v, hg, lexLe_refl v⟩
  | cons m ms ih =>
    obtain ⟨v1, hg1, hle1⟩ := dedupeStep_get_mono m hg
    obtain ⟨v2, hg2, hle2⟩ := ih hg1
    exact ⟨v2, hg2, lexLe_trans hle1 hle2⟩

theorem foldl_dedupe_entries (ms : List Mention) (acc : List (String × Mention)) :
    ∀ p ∈ ms.foldl dedupeStep acc, p ∈ acc ∨ (p.1 = mentionKey p.2 ∧ p.2 ∈ ms) := by
  induction ms generalizing acc with
  | nil =>
    intro p hp
    exact Or.inl hp
  | cons m ms ih =>
    intro p hp
    rcases ih (dedupeStep acc m) p hp with h | h
    · rcases dedupeStep_entry_cases h with h1 | h1
      · subst h1
        exact Or.inr ⟨rfl, List.mem_cons_self ..⟩
      · exact Or.inl h1
    · exact Or.inr ⟨h.1, List.mem_cons_of_mem _ h.2⟩

theorem foldl_dedupe_nodup (ms : List Mention) (acc : List (String × Mention))
    (h : (acc.map Prod.fst).Nodup) : ((ms.foldl dedupeStep acc).map Prod.fst).Nodup := by
  induction ms generalizing acc with
  | nil => exact h
  | cons m ms ih => exact ih _ (nodup_dedupeStep h)

theorem foldl_dedupe_dominates (ms : List Mention) {m' : Mention} (hm' : m' ∈ ms) :
    ∃ v', mapGet (ms.foldl dedupeStep []) (mentionKey m') = some v' ∧ lexLe m' v' := by
  obtain ⟨l1, l2, rfl⟩ := List.append_of_mem hm'
  rw [List.foldl_append, List.foldl_cons]
  obtain ⟨v1, hg1, hle1⟩ := dedupeStep_get_self (l1.foldl dedupeStep []) m'
  obtain ⟨v2, hg2, hle2⟩ := foldl_dedupe_get_mono l2 hg1
  exact ⟨v2, hg2, lexLe_trans hle1 hle2⟩

theorem mem_of_mem_deduplicateMentions {ms : List Mention} {m : Mention}
    (h : m ∈ deduplicateMentions ms) : m ∈ ms := by
  unfold deduplicateMentions at h
  rw [mem_sortLe] at h
  rcases List.mem_map.mp h with ⟨p, hp, rfl⟩
  rcases foldl_dedupe_entries ms [] p hp with h1 | h1
  · simp at h1
  · exact h1.2

theorem deduplicateMentions_dominates {ms : List Mention} {m : Mention}
    (hm : m ∈ deduplicateMentions ms) {m' : Mention} (hm' : m' ∈ ms)
    (hk : mentionKey m' = mentionKey m) : lexLe m' m := by
  unfold deduplicateMentions at hm
  rw [mem_sortLe] at hm
  rcases List.mem_map.mp hm with ⟨p, hp, rfl⟩
  have hkey : p.1 = mentionKey p.2 := by
    rcases foldl_dedupe_entries ms [] p hp with h1 | h1
    · simp at h1
    · exact h1.1
  have hnodup := foldl_dedupe_nodup ms [] (by simp)
  have hget : mapGet (ms.foldl dedupeStep []) p.1 = some p.2 :=
    mapGet_eq_of_mem_nodup (by simpa using hp) hnodup
  obtain ⟨v', hg', hle'⟩ := foldl_dedupe_dominates ms hm'
  rw [hk, ← hkey, hget] at hg'
  injection hg' with hv
  exact hv ▸ hle'

theorem deduplicateMentions_keys_pairwise (ms : List Mention) :
    (deduplicateMentions ms).Pairwise (fun a b => mentionKey a ≠ mentionKey b) := by
  unfold deduplicateMentions
  refine ((sortLe_perm mentionLe _).pairwise_iff (fun h => Ne.symm h)).mpr ?_
  have hnodup := foldl_dedupe_nodup ms [] (by simp)
  have hkeys : ∀ p ∈ ms.foldl dedupeStep [], p.1 = mentionKey p.2 := by
    intro p hp
    rcases foldl_dedupe_entries ms [] p hp with h1 | h1
    · simp at h1
    · exact h1.1
  rw [List.map_congr_left hkeys] at hnodup
  rw [List.pairwise_map]
  exact List.pairwise_map.mp hnodup

theorem mentionLe_trans {a b c : Mention} (h1 : mentionLe a b) (h2 : mentionLe b c) :
    mentionLe a c := by
  simp only [mentionLe, Bool.or_eq_true, Bool.and_eq_true, decide_eq_true_eq] at h1 h2 ⊢
  rcases h1 with h1 | ⟨h1, h1s⟩ <;> rcases h2 with h2 | ⟨h2, h2s⟩
  · exact Or.inl (h2.trans h1)
  · exact Or.inl (h2 ▸ h1)
  · exact Or.inl (h1 ▸ h2)
  · exact Or.inr ⟨h2.trans h1, h2s.trans h1s⟩

theorem mentionLe_total (a b : Mention) : mentionLe a b || mentionLe b a := by
  simp only [mentionLe, Bool.or_eq_true, Bool.and_eq_true, decide_eq_true_eq]
  rcases Nat.lt_trichotomy (priorityOf a.matchType) (priorityOf b.matchType) with h | h | h
  · exact Or.inr (Or.inl h)
  · rcases le_total a.score b.score with hs | hs
    · exact Or.inr (Or.inr ⟨h, hs⟩)
    · exact Or.inl (Or.inr ⟨h.symm, hs⟩)
  · exact Or.inl (Or.inl h)

theorem deduplicateMentions_sorted (ms : List Mention) :
    (deduplicateMentions ms).Pairwise (fun a b =>
      priorityOf b.matchType < priorityOf a.matchType ∨
        (priorityOf a.matchType = priorityOf b.matchType ∧ b.score ≤ a.score)) := by
  have h := sortLe_pairwise mentionLe
    (fun a b c h1 h2 => mentionLe_trans h1 h2)
    (fun a b => mentionLe_total a b)
    ((ms.foldl dedupeStep []).map Prod.snd)
  refine h.imp ?_
  intro a b hab
  simp only [mentionLe, Bool.or_eq_true, Bool.and_eq_true, decide_eq_true_eq] at hab
  rcases hab with hab | ⟨hab, habs⟩
  · exact Or.inl hab
  · exact Or.inr ⟨hab.symm, habs⟩

theorem tryVariantExplicit_eq_some {term : Term} {seg : Segment} {segmentNorm variant : String}
    {m : Mention} (h : tryVariantExplicit term seg segmentNorm variant = some m) :
    m.matchType = .explicit ∧ m.score = 1 ∧ m.segmentId = seg.id := by
  simp only [tryVariantExplicit] at h
  split at h
  · cases h
  · split at h
    · cases h
    · split at h
      · cases h
      · split at h
        · cases h
        · split at h
          · cases h
          · injection h with h
            subst h
            exact ⟨rfl, rfl, rfl⟩

theorem mem_findExplicitMatches {terms : List Term} {segments : List Segment} {m : Mention}
    (h : m ∈ findExplicitMatches terms segments) :
    m.matchType = .explicit ∧ m.score = 1 := by
  simp only [findExplicitMatches, List.mem_flatMap, List.mem_filterMap] at h
  obtain ⟨t, ht, s, hs, hm⟩ := h
  simp only [firstVariantMatch] at hm
  obtain ⟨v, hv, hvm⟩ := List.exists_of_findSome?_eq_some hm
  have hc := tryVariantExplicit_eq_some hvm
  exact ⟨hc.1, hc.2.1⟩

theorem tryPhrase_eq_some {fuse : FuseFn} {corpus : List CorpusEntry} {options : FuzzyOptions}
    {seg : Segment} {phrase : String} {m : Mention}
    (h : tryPhrase fuse corpus options seg phrase = some m) :
    m.matchType = .fuzzy ∧ m.segmentId = seg.id ∧
      ∃ r rest, fuse corpus options (norm phrase) = r :: rest ∧
        r.score < options.threshold ∧ m.score = round4 (1 - r.score) := by
  simp only [tryPhrase] at h
  split at h
  · cases h
  · split at h
    · cases h
    · rename_i heq
      split at h
      · split at h
        · cases h
        · split at h
          · cases h
          · injection h with h
            subst h
            exact ⟨rfl, rfl, _, _, heq, by assumption, rfl⟩
      · cases h

theorem fuzzySegmentMentions_mem {fuse : FuseFn} {corpus : List CorpusEntry}
    {options : FuzzyOptions} {seg : Segment} {m : Mention}
    (h : m ∈ fuzzySegmentMentions fuse corpus options seg) :
    m.matchType = .fuzzy ∧ m.segmentId = seg.id ∧
      ∃ r q rest, fuse corpus options q = r :: rest ∧
        r.score < options.threshold ∧ m.score = round4 (1 - r.score) := by
  simp only [fuzzySegmentMentions, List.mem_filterMap, List.mem_range] at h
  obtain ⟨i, hi, hsome⟩ := h
  obtain ⟨phrase, hphrase, htry⟩ := List.exists_of_findSome?_eq_some hsome
  obtain ⟨h1, h2, r, rest, heq, hlt, hsc⟩ := tryPhrase_eq_some htry
  exact ⟨h1, h2, r, norm phrase, rest, heq, hlt, hsc⟩

theorem mem_findFuzzyMentions {fuse : FuseFn} {terms : List Term} {segments : List Segment}
    {excl : List String} {options : FuzzyOptions} {m : Mention}
    (h : m ∈ findFuzzyMentions fuse terms segments excl options) :
    m.matchType = .fuzzy ∧ (∃ s ∈ segments, m.segmentId = s.id) ∧
      ∃ r q rest, fuse (buildSearchCorpus terms) options q = r :: rest ∧
        r.score < options.threshold ∧ m.score = round4 (1 - r.score) := by
  simp only [findFuzzyMentions, List.mem_flatMap] at h
  obtain ⟨s, hs, hmem⟩ := h
  split at hmem
  · cases hmem
  · obtain ⟨h1, h2, hrest⟩ := fuzzySegmentMentions_mem hmem
    exact ⟨h1, ⟨s, hs, h2⟩, hrest⟩

theorem ratFloor_eq_intFloor (q : ℚ) : q.floor = ⌊q⌋ :=
  rfl

theorem round4_bounds {q : ℚ} (h0 : 0 ≤ q) (h1 : q ≤ 1) : 0 ≤ round4 q ∧ round4 q ≤ 1 := by
  have hlo : (0 : ℤ) ≤ ⌊q * 10000 + 1 / 2⌋ := Int.le_floor.mpr (by push_cast; linarith)
  have hhi : ⌊q * 10000 + 1 / 2⌋ ≤ 10000 := by
    have h2 : ⌊q * 10000 + 1 / 2⌋ < 10001 := Int.floor_lt.mpr (by push_cast; linarith)
    omega
  unfold round4
  rw [ratFloor_eq_intFloor]
  constructor
  · apply div_nonneg _ (by norm_num)
    exact_mod_cast hlo
  · rw [div_le_one (by norm_num : (0:ℚ) < 10000)]
    exact_mod_cast hhi

theorem mem_findMentions {fuse : FuseFn} {terms : List RawTerm} {segments : List Segment}
    {m : Mention} (h : m ∈ findMentions fuse terms segments) :
    m ∈ findExplicitMatches (terms.map normalizeRawTerm) segments ∨
      m ∈ findFuzzyMentions fuse (terms.map normalizeRawTerm) segments
        ((findExplicitMatches (terms.map normalizeRawTerm) segments).map
          (fun x => toString x.segmentId))
        { threshold := DEFAULT_FUZZY_THRESHOLD, distance := 50,
          minMatchCharLength := 5, includeScore := true } := by
  unfold findMentions at h
  exact List.mem_append.mp (mem_of_mem_deduplicateMentions h)

theorem fuzzySegmentMentions_length_le (fuse : FuseFn) (corpus : List CorpusEntry)
    (options : FuzzyOptions) (seg : Segment) :
    (fuzzySegmentMentions fuse corpus options seg).length ≤ (splitRuns isWs seg.text).length := by
  unfold fuzzySegmentMentions
  exact (List.length_filterMap_le _ _).trans (by simp)

theorem tryVariantExplicit_empty_variant (term : Term) (seg : Segment) (segmentNorm : String) :
    tryVariantExplicit term seg segmentNorm "" = none := by
  have h0 : jsTrim "" = "" := rfl
  simp [tryVariantExplicit, h0]

theorem firstVariantMatch_blank {b : Term} (hbt : b.text = "") (hba : b.aliases = [])
    (seg : Segment) : firstVariantMatch b seg = none := by
  unfold firstVariantMatch
  rw [hbt, hba]
  simp [List.findSome?, tryVariantExplicit_empty_variant]

theorem findExplicitMatches_append_blank {ts : List Term} {b : Term}
    (hbt : b.text = "") (hba : b.aliases = []) (segments : List Segment) :
    findExplicitMatches (ts ++ [b]) segments = findExplicitMatches ts segments := by
  unfold findExplicitMatches
  rw [List.flatMap_append]
  have h : [b].flatMap (fun term => segments.filterMap fun segment =>
      firstVariantMatch term segment) = [] := by
    simp only [List.flatMap_cons, List.flatMap_nil, List.append_nil,
      List.filterMap_eq_nil_iff]
    intro seg _
    exact firstVariantMatch_blank hbt hba seg
  rw [h, List.append_nil]

theorem buildSearchCorpus_append_blank {ts : List Term} {b : Term}
    (hbt : b.text = "") (hba : b.aliases = []) :
    buildSearchCorpus (ts ++ [b]) = buildSearchCorpus ts := by
  unfold buildSearchCorpus
  rw [List.filter_append, List.flatMap_append]
  have happ : ∀ (l y : List CorpusEntry), y = [] → l ++ y = l := by
    intro l y hy
    rw [hy, List.append_nil]
  apply happ
  by_cases hexp : b.isExplicit = some false
  · simp [hexp]
  · simp only [List.filter_cons, List.filter_nil]
    rw [if_pos (by simp [hexp])]
    simp only [List.flatMap_cons, List.flatMap_nil, List.append_nil, hbt, hba,
      List.filterMap_eq_nil_iff, List.mem_singleton]
    intro v hv
    subst hv
    have h0 : jsTrim "" = "" := rfl
    simp [h0]

theorem findFuzzyMentions_segIds {fuse : FuseFn} {terms : List Term} {segments : List Segment}
    {excl : List String} {options : FuzzyOptions} {m : Mention}
    (h : m ∈ findFuzzyMentions fuse terms segments excl options) :
    ∃ s ∈ segments, m.segmentId = s.id :=
  (mem_findFuzzyMentions h).2.1

theorem filter_flatMap_fuzzy_nil {fuse : FuseFn} {corpus : List CorpusEntry}
    {options : FuzzyOptions} {excl : List String} {segs : List Segment} {i : Int}
    (hid : ∀ s ∈ segs, s.id ≠ i) :
    ((segs.flatMap fun segment =>
        if excl.contains (toString segment.id) then []
        else fuzzySegmentMentions fuse corpus options segment).filter
      (fun m => m.segmentId == i)) = [] := by
  rw [List.filter_eq_nil_iff]
  intro m hm
  rw [List.mem_flatMap] at hm
  obtain ⟨s, hs, hmem⟩ := hm
  split at hmem
  · cases hmem
  · have h2 := (fuzzySegmentMentions_mem hmem).2.1
    simp only [beq_iff_eq, h2]
    exact hid s hs

theorem filter_fuzzySegment_le {fuse : FuseFn} {corpus : List CorpusEntry}
    {options : FuzzyOptions} {excl : List String} (s' : Segment) (i : Int) :
    ((if excl.contains (toString s'.id) then []
        else fuzzySegmentMentions fuse corpus options s').filter
      (fun m => m.segmentId == i)).length ≤ (splitRuns isWs s'.text).length := by
  split
  · simp
  · exact (List.length_filter_le _ _).trans (fuzzySegmentMentions_length_le ..)

theorem deduplicateMentions_pair_unique (ms : List Mention) :
    (deduplicateMentions ms).Pairwise
      (fun a b => ¬(a.term = b.term ∧ a.segmentId = b.segmentId)) := by
  refine (deduplicateMentions_keys_pairwise ms).imp ?_
  intro a b hab hc
  exact hab (by simp only [mentionKey, hc.1, hc.2])

/-- C1: for every fuzzy oracle, raw term list and segment list, no two
mentions in the list returned by findMentions share the same
(term, segmentId) pair. -/
theorem findMentions_unique_term_segment (fuse : FuseFn) (terms : List RawTerm)
    (segments : List Segment) :
    (findMentions fuse terms segments).Pairwise
      (fun a b => ¬(a.term = b.term ∧ a.segmentId = b.segmentId)) := by
  unfold findMentions
  exact deduplicateMentions_pair_unique _

/-- C2: every mention returned by findMentions has matchType explicit or
fuzzy; the implicit stage is commented out in the source, so findMentions
never produces an implicit mention and never reaches the embedding
provider. -/
theorem findMentions_no_implicit (fuse : FuseFn) (terms : List RawTerm)
    (segments : List Segment) :
    ∀ m ∈ findMentions fuse terms segments,
      m.matchType = MatchType.explicit ∨ m.matchType = MatchType.fuzzy := by
  intro m hm
  rcases mem_findMentions hm with h | h
  · exact Or.inl (mem_findExplicitMatches h).1
  · exact Or.inr (mem_findFuzzyMentions h).1

/-- Witness for C2 at the concrete RCUH input. -/
theorem findMentions_no_implicit_witness :
    mentionRCUH.matchType = MatchType.explicit ∨ mentionRCUH.matchType = MatchType.fuzzy :=
  findMentions_no_implicit fuseEmpty [rawRCUH] [segRCUH] mentionRCUH
    (by with_unfolding_all decide)

/-- C3: on a key collision deduplicateMentions keeps the mention whose
strategy has the higher priority, breaking equal priority by the higher
score, and a pair found both explicitly and implicitly survives only as the
explicit mention, in either arrival order. -/
theorem deduplicateMentions_keeps_highest (ms : List Mention) :
    (∀ m ∈ deduplicateMentions ms, ∀ m' ∈ ms,
        m'.term = m.term → m'.segmentId = m.segmentId →
          priorityOf m'.matchType < priorityOf m.matchType ∨
            (priorityOf m'.matchType = priorityOf m.matchType ∧ m'.score ≤ m.score)) ∧
    (∀ m₁ m₂ : Mention, m₁.term = m₂.term → m₁.segmentId = m₂.segmentId →
        m₁.matchType = MatchType.explicit → m₂.matchType = MatchType.implicit →
          deduplicateMentions [m₁, m₂] = [m₁] ∧ deduplicateMentions [m₂, m₁] = [m₁]) := by
  constructor
  · intro m hm m' hm' ht hs
    have hk : mentionKey m' = mentionKey m := by
      simp only [mentionKey, ht, hs]
    exact deduplicateMentions_dominates hm hm' hk
  · intro m₁ m₂ ht hs h1 h2
    have hk : mentionKey m₁ = mentionKey m₂ := by
      simp only [mentionKey, ht, hs]
    have hpri1 : priorityOf m₁.matchType = 3 := by rw [h1]; rfl
    have hpri2 : priorityOf m₂.matchType = 1 := by rw [h2]; rfl
    constructor
    · have e1 : dedupeStep [] m₁ = [(mentionKey m₁, m₁)] := by
        rw [dedupeStep_eq_of_none (show mapGet [] (mentionKey m₁) = none from rfl)]
        rfl
      have hget : mapGet [(mentionKey m₁, m₁)] (mentionKey m₂) = some m₁ := by
        rw [← hk]
        simp [mapGet]
      have e2 : dedupeStep [(mentionKey m₁, m₁)] m₂ = [(mentionKey m₁, m₁)] := by
        apply dedupeStep_eq_of_some_neg hget
        rw [hpri1, hpri2]
        rintro (h | ⟨h, -⟩) <;> omega
      unfold deduplicateMentions
      rw [List.foldl_cons, List.foldl_cons, List.foldl_nil, e1, e2]
      rfl
    · have e1 : dedupeStep [] m₂ = [(mentionKey m₂, m₂)] := by
        rw [dedupeStep_eq_of_none (show mapGet [] (mentionKey m₂) = none from rfl)]
        rfl
      have hget : mapGet [(mentionKey m₂, m₂)] (mentionKey m₁) = some m₂ := by
        rw [hk]
        simp [mapGet]
      have e2 : dedupeStep [(mentionKey m₂, m₂)] m₁ = [(mentionKey m₂, m₁)] := by
        rw [dedupeStep_eq_of_some_pos hget (by rw [hpri1, hpri2]; exact Or.inl (by omega))]
        simp [mapSet, hk]
      unfold deduplicateMentions
      rw [List.foldl_cons, List.foldl_cons, List.foldl_nil, e1, e2]
      rfl

/-- Witness for C3 at an explicit and an implicit mention of the same term
and segment. -/
theorem deduplicateMentions_keeps_highest_witness :
    (priorityOf mentionImplEx.matchType < priorityOf mentionExplEx.matchType ∨
      (priorityOf mentionImplEx.matchType = priorityOf mentionExplEx.matchType ∧
        mentionImplEx.score ≤ mentionExplEx.score)) ∧
    deduplicateMentions [mentionExplEx, mentionImplEx] = [mentionExplEx] ∧
    deduplicateMentions [mentionImplEx, mentionExplEx] = [mentionExplEx] :=
  ⟨(deduplicateMentions_keeps_highest [mentionExplEx, mentionImplEx]).1 mentionExplEx
      (by with_unfolding_all decide) mentionImplEx (by decide) (by decide) (by decide),
    (deduplicateMentions_keeps_highest []).2 mentionExplEx mentionImplEx rfl rfl rfl rfl⟩

/-- C4: the list returned by findMentions is sorted by match-type priority
descending and, within equal priority, by score descending; the order is a
function of the input, hence deterministic. -/
theorem findMentions_sorted (fuse : FuseFn) (terms : List RawTerm)
    (segments : List Segment) :
    (findMentions fuse terms segments).Pairwise
      (fun a b => priorityOf b.matchType < priorityOf a.matchType ∨
        (priorityOf a.matchType = priorityOf b.matchType ∧ b.score ≤ a.score)) := by
  unfold findMentions
  exact deduplicateMentions_sorted _

/-- C5: under the Fuse.js contract that reported scores lie in [0, 1],
every mention returned by findMentions has a score in [0, 1], and every
explicit mention scores exactly 1. -/
theorem findMentions_score_bounds (fuse : FuseFn) (hf : FuseValid fuse)
    (terms : List RawTerm) (segments : List Segment) :
    ∀ m ∈ findMentions fuse terms segments,
      (0 ≤ m.score ∧ m.score ≤ 1) ∧ (m.matchType = MatchType.explicit → m.score = 1) := by
  intro m hm
  rcases mem_findMentions hm with h | h
  · obtain ⟨ht, hs⟩ := mem_findExplicitMatches h
    exact ⟨⟨by rw [hs]; norm_num, by rw [hs]⟩, fun _ => hs⟩
  · obtain ⟨ht, _, r, q, rest, heq, hlt, hsc⟩ := mem_findFuzzyMentions h
    have hr : r ∈ fuse (buildSearchCorpus (terms.map normalizeRawTerm))
        { threshold := DEFAULT_FUZZY_THRESHOLD, distance := 50,
          minMatchCharLength := 5, includeScore := true } q := by
      rw [heq]
      exact List.mem_cons_self ..
    obtain ⟨h0, h1⟩ := hf _ _ _ _ hr
    have hq0 : 0 ≤ 1 - r.score := by linarith
    have hq1 : 1 - r.score ≤ 1 := by linarith
    obtain ⟨hb0, hb1⟩ := round4_bounds hq0 hq1
    refine ⟨⟨by rw [hsc]; exact hb0, by rw [hsc]; exact hb1⟩, fun hexp => ?_⟩
    rw [ht] at hexp
    exact absurd hexp (by decide)

/-- Witness for C5 at the concrete RCUH input with the empty fuzzy
oracle. -/
theorem findMentions_score_bounds_witness :
    (0 ≤ mentionRCUH.score ∧ mentionRCUH.score ≤ 1) ∧
      (mentionRCUH.matchType = MatchType.explicit → mentionRCUH.score = 1) :=
  findMentions_score_bounds fuseEmpty
    (fun _ _ _ r hr => absurd hr (List.not_mem_nil r))
    [rawRCUH] [segRCUH] mentionRCUH (by with_unfolding_all decide)

/-- Counterexample for C6: with an empty cache and a failing provider,
batchGetEmbeddings returns the provider error instead of empty-vector
sentinels. -/
theorem batchGetEmbeddings_error_counterexample :
    batchGetEmbeddings failFetch [] ["a"] = .error "network" :=
  rfl

/-- C6 amended: when some requested text misses the cache and the provider
batch fails, batchGetEmbeddings propagates the provider error; the source
has no catch at the cache boundary. -/
theorem batchGetEmbeddings_propagates_error
    (fetch : List String → Except String (List (List ℚ))) (cache : EmbCache)
    (texts : List String) (e : String)
    (hmiss : (jsSetDedup [] (texts.map norm)).filter
      (fun u => !(mapGet cache u).isSome) ≠ [])
    (herr : fetch ((jsSetDedup [] (texts.map norm)).filter
      (fun u => !(mapGet cache u).isSome)) = .error e) :
    batchGetEmbeddings fetch cache texts = .error e := by
  unfold batchGetEmbeddings
  cases hm : (jsSetDedup [] (texts.map norm)).filter (fun u => !(mapGet cache u).isSome) with
  | nil => exact absurd hm hmiss
  | cons a as =>
    rw [hm] at herr
    simp only [hm, herr]

/-- Witness for C6 amended: one cached and one missing text against a
failing provider. -/
theorem batchGetEmbeddings_propagates_error_witness :
    batchGetEmbeddings failFetch cacheB ["a", "b"] = .error "network" :=
  batchGetEmbeddings_propagates_error failFetch cacheB ["a", "b"] "network"
    (by decide) rfl

/-- Counterexample for C7: the term University of Hawaii against a segment
whose tokens are separated by irregular whitespace yields no explicit
mention at all, so no flexible-whitespace mention with score 0.95 exists. -/
theorem findExplicitMatches_no_flexible_whitespace :
    findExplicitMatches [uhTerm] [uhSegment] = [] := by
  decide

/-- C7 amended: the explicit matcher has no flexible-whitespace path: every
mention it produces scores exactly 1 via the exact bounded-phrase match,
and its matchType is explicit. -/
theorem findExplicitMatches_score_one (terms : List Term) (segments : List Segment) :
    ∀ m ∈ findExplicitMatches terms segments,
      m.score = 1 ∧ m.matchType = MatchType.explicit := by
  intro m hm
  obtain ⟨h1, h2⟩ := mem_findExplicitMatches hm
  exact ⟨h2, h1⟩

/-- Witness for C7 amended at the concrete RCUH input. -/
theorem findExplicitMatches_score_one_witness :
    mentionRCUH.score = 1 ∧ mentionRCUH.matchType = MatchType.explicit :=
  findExplicitMatches_score_one [normalizeRawTerm rawRCUH] [segRCUH] mentionRCUH
    (by decide)

/-- Counterexample for C8: a segment repeating a corpus phrase at two
window positions receives two fuzzy mentions from findFuzzyMentions, under
a fuzzy oracle that returns a perfect hit for the exact query. -/
theorem findFuzzyMentions_two_per_segment :
    (findFuzzyMentions fuseUH [uhTerm] [uhSeg2] [] fuzzyOptsDefault).map
      (fun m => m.segmentId) = [3, 3] := by
  with_unfolding_all decide

/-- C8 amended: for segments with pairwise distinct ids, findFuzzyMentions
returns at most one fuzzy mention per sliding-window start position of a
segment, so a segment contributes at most as many mentions as it has
words; the break in the source ends only the candidate-phrase loop. -/
theorem findFuzzyMentions_one_per_window (fuse : FuseFn) (terms : List Term)
    (segments : List Segment) (excl : List String) (options : FuzzyOptions)
    (hnodup : (segments.map Segment.id).Nodup) :
    ∀ s ∈ segments,
      ((findFuzzyMentions fuse terms segments excl options).filter
        (fun m => m.segmentId == s.id)).length ≤ (splitRuns isWs s.text).length := by
  intro s hs
  unfold findFuzzyMentions
  induction segments with
  | nil => cases hs
  | cons s' rest ih =>
    rw [List.flatMap_cons, List.filter_append, List.length_append]
    rw [List.map_cons, List.nodup_cons] at hnodup
    rcases List.mem_cons.mp hs with rfl | hmem
    · have hrest : ((rest.flatMap fun segment =>
          if excl.contains (toString segment.id) then []
          else fuzzySegmentMentions fuse (buildSearchCorpus terms) options segment).filter
            (fun m => m.segmentId == s.id)) = [] := by
        apply filter_flatMap_fuzzy_nil
        intro s'' hs'' hcontra
        exact hnodup.1 (hcontra ▸ List.mem_map.mpr ⟨s'', hs'', rfl⟩)
      rw [hrest]
      simp only [List.length_nil, Nat.add_zero]
      exact filter_fuzzySegment_le s s.id
    · have hhead : ((if excl.contains (toString s'.id) then []
          else fuzzySegmentMentions fuse (buildSearchCorpus terms) options s').filter
            (fun m => m.segmentId == s.id)) = [] := by
        rw [List.filter_eq_nil_iff]
        intro m hm
        split at hm
        · cases hm
        · have h2 := (fuzzySegmentMentions_mem hm).2.1
          simp only [beq_iff_eq, h2]
          intro hcontra
          exact hnodup.1 (hcontra ▸ List.mem_map.mpr ⟨s, hmem, rfl⟩)
      rw [hhead]
      simp only [List.length_nil, Nat.zero_add]
      exact ih hnodup.2 hmem

/-- Witness for C8 amended at the two-mention fuzzy example. -/
theorem findFuzzyMentions_one_per_window_witness :
    ((findFuzzyMentions fuseUH [uhTerm] [uhSeg2] [] fuzzyOptsDefault).filter
      (fun m => m.segmentId == uhSeg2.id)).length ≤ (splitRuns isWs uhSeg2.text).length :=
  findFuzzyMentions_one_per_window fuseUH [uhTerm] [uhSeg2] [] fuzzyOptsDefault
    (by decide) uhSeg2 (by decide)

/-- Counterexample for C9: the normalization step keeps padded text
untrimmed, keeps a duplicated alias array, and keeps a blank-text term in
the list. -/
theorem termNormalization_counterexample :
    ([rawPadded, rawBlankText].map normalizeRawTerm).map Term.text = ["  ab  ", "   "] ∧
      jsTrim "  ab  " ≠ "  ab  " ∧
      (normalizeRawTerm rawPadded).aliases = ["x", "x"] := by
  decide

/-- C9 amended: the normalization step copies the label verbatim without
trimming, keeps array aliases as they are and keeps blank terms; a raw term
normalizing to empty text with no aliases can produce no mentions, so
appending it leaves the findMentions output unchanged. -/
theorem findMentions_blank_term_inert (fuse : FuseFn) (raws : List RawTerm)
    (segments : List Segment) (r : RawTerm)
    (hblank : (normalizeRawTerm r).text = "" ∧ (normalizeRawTerm r).aliases = []) :
    findMentions fuse (raws ++ [r]) segments = findMentions fuse raws segments := by
  obtain ⟨hbt, hba⟩ := hblank
  simp only [findMentions]
  rw [List.map_append, List.map_cons, List.map_nil]
  rw [findExplicitMatches_append_blank hbt hba]
  have hfz : findFuzzyMentions fuse (raws.map normalizeRawTerm ++ [normalizeRawTerm r])
      segments
      ((findExplicitMatches (raws.map normalizeRawTerm) segments).map
        (fun m => toString m.segmentId))
      { threshold := DEFAULT_FUZZY_THRESHOLD, distance := 50,
        minMatchCharLength := 5, includeScore := true } =
      findFuzzyMentions fuse (raws.map normalizeRawTerm) segments
      ((findExplicitMatches (raws.map normalizeRawTerm) segments).map
        (fun m => toString m.segmentId))
      { threshold := DEFAULT_FUZZY_THRESHOLD, distance := 50,
        minMatchCharLength := 5, includeScore := true } := by
    unfold findFuzzyMentions
    rw [buildSearchCorpus_append_blank hbt hba]
  rw [hfz]

/-- Witness for C9 amended: appending the all-absent raw record to the RCUH
input changes nothing. -/
theorem findMentions_blank_term_inert_witness :
    findMentions fuseEmpty ([rawRCUH] ++ [rawEmpty]) [segRCUH] =
      findMentions fuseEmpty [rawRCUH] [segRCUH] :=
  findMentions_blank_term_inert fuseEmpty [rawRCUH] [segRCUH] rawEmpty ⟨rfl, rfl⟩

theorem zipMulSum_comm : ∀ (a b : List ℝ),
    ((a.zip b).map fun p => p.1 * p.2).sum = ((b.zip a).map fun p => p.1 * p.2).sum := by
  intro a
  induction a with
  | nil =>
    intro b
    cases b <;> simp
  | cons x xs ih =>
    intro b
    cases b with
    | nil => simp
    | cons y ys =>
      simp only [List.zip_cons_cons, List.map_cons, List.sum_cons, ih ys]
      ring

/-- C10: cosineSimilarity is symmetric on equal-length real vectors, and
returns 0 whenever either vector has zero accumulated square norm. -/
theorem cosineSimilarity_symm (a b : List ℝ) (h : a.length = b.length) :
    cosineSimilarity a b = cosineSimilarity b a ∧
      (((a.map fun x => x * x).sum = 0 ∨ (b.map fun x => x * x).sum = 0) →
        cosineSimilarity a b = 0) := by
  have hta : b.take a.length = b := by
    rw [h]
    exact List.take_length b
  have htb : a.take b.length = a := by
    rw [← h]
    exact List.take_length a
  constructor
  · simp only [cosineSimilarity, hta, htb]
    rw [zipMulSum_comm]
    by_cases h1 : (a.map fun x => x * x).sum = 0 <;>
      by_cases h2 : (b.map fun x => x * x).sum = 0 <;>
        simp [h1, h2, mul_comm]
  · intro h0
    simp only [cosineSimilarity, hta]
    rw [if_pos h0]

/-- Witness for C10 at two concrete equal-length vectors. -/
theorem cosineSimilarity_symm_witness :
    cosineSimilarity [1, 2] [3, 4] = cosineSimilarity [3, 4] [1, 2] ∧
      (((([1, 2] : List ℝ).map fun x => x * x).sum = 0 ∨
          (([3, 4] : List ℝ).map fun x => x * x).sum = 0) →
        cosineSimilarity [1, 2] [3, 4] = 0) :=
  cosineSimilarity_symm [1, 2] [3, 4] rfl

end TranscriptMentions
